import Mathlib

/-!
Verification of the private-histogram secure-sum protocol (`main.py`).

The Python program is shallowly embedded below.  Conventions:

* Python integers are modelled as `Int` (arbitrary precision, as in Python);
  masked values are written to files via `str(...)` and read back via
  `int(...)`, an exact round-trip, so they stay `Int` in the model.
* `random.seed(s); random.randint(1, N)` is a deterministic function of the
  seed string `s` (Python's Mersenne-Twister is deterministic given the seed,
  also across process restarts).  We model the seeded draw by an arbitrary
  function `H : String → Nat` giving the raw entropy, and `randint 1 N`
  clamping it into `[1, N]`; every theorem is universally quantified over `H`,
  so it holds for the actual generator.
* JSON objects (Python dicts) are association lists `List (String × Int)` in
  dict iteration order.
* Filesystem/permission effects of the key-setup stage are modelled as an
  explicit event trace.
-/

/-- `STATISTICAL_SECURITY = 2**30` from `main.py`. -/
def STATISTICAL_SECURITY : Nat := 2 ^ 30

/-- `random.randint(1, n)`: a draw in `[1, n]`, with the underlying entropy
made explicit. -/
def randint1 (n : Nat) (entropy : Nat) : Nat := 1 + entropy % n

/-- `prg(seed, key_name)` from `main.py`: seed the generator with the string
`f"{seed}_{key_name}"` and draw `randint(1, STATISTICAL_SECURITY)`.
`H` is the deterministic map from seed string to the raw draw. -/
def prg (H : String → Nat) (seed : Int) (key_name : String) : Nat :=
  randint1 STATISTICAL_SECURITY (H (toString seed ++ "_" ++ key_name))

/-- The error message raised by `get_neighbors` when the user is absent. -/
def notInRingMsg (uid : String) : String :=
  "user_id " ++ uid ++ " not found in the ring."

/-- `prev_index = (index - 1) % len(ring)` with Python `%` semantics
(always non-negative), i.e. `Int.emod`. -/
def prevIdx (n i : Nat) : Nat := ((((i : Int) - 1) % (n : Int))).toNat

/-- `next_index = (index + 1) % len(ring)`. -/
def nextIdx (n i : Nat) : Nat := (i + 1) % n

/-- `PrivateHistogram.get_neighbors`: look up `my_user_id` in the ring
(`ring.index` raises `ValueError` if absent, caught and re-raised), then
return the ring members at `(index - 1) % n` and `(index + 1) % n`. -/
def get_neighbors (ring : List String) (my_user_id : String) :
    Except String (String × String) :=
  if my_user_id ∈ ring then
    let index := ring.indexOf my_user_id
    let n := ring.length
    .ok (ring.getD (prevIdx n index) "", ring.getD (nextIdx n index) "")
  else
    .error (notInRingMsg my_user_id)

/-- The comparison Python's `sorted(data.items())` uses: lexicographic order
on `(key, value)` tuples. -/
def itemLe (a b : String × Int) : Bool :=
  decide (a.1 < b.1) || (decide (a.1 = b.1) && decide (a.2 ≤ b.2))

/-- `PrivateHistogram.load_my_data`: read `my_data.json` and return
`OrderedDict(sorted(data.items()))` — the items in canonical sorted order. -/
def load_my_data (data : List (String × Int)) : List (String × Int) :=
  data.mergeSort itemLe

/-- `PrivateHistogram.encrypt_data`: for each field (in dict iteration
order), add `prg(first_key, field) - prg(second_key, field)`.  The Python
code stores `str(int(value) + prg_diff)`; `str`/`int` round-trip exactly, so
values stay `Int`. -/
def encrypt_data (H : String → Nat) (my_data : List (String × Int))
    (first_key second_key : Int) : List (String × Int) :=
  my_data.map (fun kv =>
    (kv.1, kv.2 + ((prg H first_key kv.1 : Int) - (prg H second_key kv.1 : Int))))

/-- Sum of the values a record holds under field name `f` (what the
aggregation loop adds into `aggregate[f]` from one record). -/
def fieldSum (rec : List (String × Int)) (f : String) : Int :=
  ((rec.filter (fun kv => kv.1 == f)).map Prod.snd).sum

/-- The accumulator dict literal initialised in `aggregate_data` — exactly
the four schema fields, each starting at 0. -/
structure Aggregate where
  view_time : Int
  average_views_per_day : Int
  num_movies_watched : Int
  num_movies_rated : Int
deriving DecidableEq

def initAggregate : Aggregate := ⟨0, 0, 0, 0⟩

/-- `aggregate[key] += int(value)`: Python raises `KeyError` (modelled as
`none`) when `key` is not one of the four schema fields. -/
def addField (a : Aggregate) (key : String) (v : Int) : Option Aggregate :=
  if key = "view_time" then some { a with view_time := a.view_time + v }
  else if key = "average_views_per_day" then
    some { a with average_views_per_day := a.average_views_per_day + v }
  else if key = "num_movies_watched" then
    some { a with num_movies_watched := a.num_movies_watched + v }
  else if key = "num_movies_rated" then
    some { a with num_movies_rated := a.num_movies_rated + v }
  else none

/-- The inner `for key, value in user_data.items(): aggregate[key] += int(value)`
loop over one participant's record. -/
def sumRecord (a : Aggregate) (rec : List (String × Int)) : Option Aggregate :=
  rec.foldl (fun acc kv => acc.bind (fun ag => addField ag kv.1 kv.2)) (some a)

/-- The averaged data written as the aggregate artifact:
`{key: total / num_members}` (Python float division, modelled exactly as
rationals; no claim depends on float rounding). -/
structure AvgData where
  view_time : Rat
  average_views_per_day : Rat
  num_movies_watched : Rat
  num_movies_rated : Rat
deriving DecidableEq

def average_of (a : Aggregate) (n : Nat) : AvgData :=
  ⟨(a.view_time : Rat) / n, (a.average_views_per_day : Rat) / n,
   (a.num_movies_watched : Rat) / n, (a.num_movies_rated : Rat) / n⟩

/-- Outcome of `aggregate_data`.  `pending` is the `return False` path (file
absent — nothing written); `keyError` is an uncaught `KeyError` escaping the
loop (nothing written); `done agg artifact` is the `return True` path, where
`artifact` is the content written to `aggregate_data.json`.  The artifact is
only produced on the `done` path, mirroring that the write in the code occurs
after the whole loop has finished. -/
inductive AggResult where
  | pending
  | keyError
  | done (aggregate : Aggregate) (artifact : AvgData)
deriving DecidableEq

/-- The participant loop of `aggregate_data`: read each ring member's
published `encrypted_data.json` (`published u = none` models an absent
file), summing into the accumulator. -/
def aggLoop (published : String → Option (List (String × Int)))
    (num_members : Nat) : List String → Aggregate → AggResult
  | [], a => .done a (average_of a num_members)
  | u :: rest, a =>
    match published u with
    | none => .pending
    | some rec =>
      match sumRecord a rec with
      | none => .keyError
      | some a' => aggLoop published num_members rest a'

/-- `PrivateHistogram.aggregate_data`: fetch the ring, loop over members,
then average and write. -/
def aggregate_data (published : String → Option (List (String × Int)))
    (ring : List String) : AggResult :=
  aggLoop published ring.length ring initAggregate

/-- The four schema field names (as initialised in the accumulator). -/
def schemaFields : List String :=
  ["view_time", "average_views_per_day", "num_movies_watched", "num_movies_rated"]

/-- A filesystem/permission effect of the key-setup stage.
`setPerm user folder readers writers` models
`set_permissions(app_dir(user)/folder, readers, writers)`;
`writeKey user folder v` models `create_file(app_dir(user)/folder/key.txt, str(v))`. -/
inductive Event where
  | setPerm (user folder : String) (readers writers : List String)
  | writeKey (user folder : String) (value : Int)
deriving DecidableEq

def Event.isWrite : Event → Bool
  | .writeKey _ _ _ => true
  | _ => false

/-- The key files as visible to one participant: their own `second` key file,
their own `first` key file (deposited by the previous neighbor), and the
`first` key file of the next neighbor (which this participant writes). -/
structure KeyState where
  mySecond : Option Int
  myFirst : Option Int
  nextFirst : Option Int
deriving DecidableEq

/-- `PrivateHistogram.setup_folder_perms`: restrict the next neighbor's
`first` folder to reader `next` / writer `me`, and the local `second` folder
to reader/writer `me`, in that order. -/
def setup_folder_perms (me next : String) : List Event :=
  [.setPerm next "first" [next] [me], .setPerm me "second" [me] [me]]

/-- Result of one invocation of Stage 1 (Key Setup): the resulting key
files, the effect trace, and the logged status line. -/
structure Stage1Result where
  state : KeyState
  events : List Event
  status : String
deriving DecidableEq

/-- Stage 1 (Key Setup) of `__main__`: if both local key files exist, do
nothing ("Key setup already complete.").  Otherwise set up folder
permissions; then, only when the `second` key file is missing, generate a
fresh secret (`fresh` models `random.randint(1, STATISTICAL_SECURITY)`),
write it to the local `second` file (`create_secret_value`) and to the next
neighbor's `first` file (`write_to_next_person`); finally report whether the
`first` key has arrived. -/
def stage1 (me next : String) (fresh : Int) (st : KeyState) : Stage1Result :=
  if st.mySecond.isSome && st.myFirst.isSome then
    ⟨st, [], "Key setup already complete."⟩
  else
    let permEvents := setup_folder_perms me next
    let st1 := if st.mySecond.isSome then st
      else { st with mySecond := some fresh, nextFirst := some fresh }
    let keyEvents := if st.mySecond.isSome then ([] : List Event)
      else [.writeKey me "second" fresh, .writeKey next "first" fresh]
    let status := if st.myFirst.isSome then "Key exchange complete."
      else "Key exchange incomplete."
    ⟨st1, permEvents ++ keyEvents, status⟩

/-- The previous ring position as a map on `Fin n`:
`i ↦ (i - 1) % n` with Python semantics. -/
def prevFin {n : Nat} (hn : 0 < n) (i : Fin n) : Fin n :=
  ⟨prevIdx n i.1, by
    unfold prevIdx
    have hne : (n : Int) ≠ 0 := by omega
    have h1 : 0 ≤ ((i.1 : Int) - 1) % (n : Int) := Int.emod_nonneg _ hne
    have h2 : ((i.1 : Int) - 1) % (n : Int) < n := Int.emod_lt_of_pos _ (by omega)
    omega⟩

theorem prevIdx_eq_ite {n i : Nat} (hn : 0 < n) (hi : i < n) :
    prevIdx n i = if i = 0 then n - 1 else i - 1 := by
  unfold prevIdx
  rcases Nat.eq_zero_or_pos i with h0 | hpos
  · subst h0
    rw [if_pos rfl]
    have h1 : ((0 : Nat) : Int) - 1 = ((n : Int) - 1) + n * (-1) := by push_cast; ring
    rw [h1, Int.add_mul_emod_self_left, Int.emod_eq_of_lt (by omega) (by omega)]
    omega
  · rw [if_neg (by omega)]
    have h2 : ((i : Int) - 1) % (n : Int) = (i : Int) - 1 :=
      Int.emod_eq_of_lt (by omega) (by omega)
    rw [h2]; omega

theorem prevIdx_lt {n : Nat} (hn : 0 < n) (i : Nat) : prevIdx n i < n := by
  unfold prevIdx
  have hne : (n : Int) ≠ 0 := by omega
  have h1 : 0 ≤ ((i : Int) - 1) % (n : Int) := Int.emod_nonneg _ hne
  have h2 : ((i : Int) - 1) % (n : Int) < n := Int.emod_lt_of_pos _ (by omega)
  omega

theorem nextIdx_lt {n : Nat} (hn : 0 < n) (i : Nat) : nextIdx n i < n :=
  Nat.mod_lt _ hn

/-- The Python formula `(i - 1) % n` agrees with the Nat-side formula
`(i + n - 1) % n` for in-range `i`. -/
theorem prevIdx_eq_nat {n i : Nat} (hn : 0 < n) (hi : i < n) :
    prevIdx n i = (i + n - 1) % n := by
  rw [prevIdx_eq_ite hn hi]
  rcases Nat.eq_zero_or_pos i with h0 | hpos
  · subst h0
    rw [if_pos rfl, Nat.zero_add, Nat.mod_eq_of_lt (by omega)]
  · rw [if_neg (by omega)]
    have h3 : i + n - 1 = (i - 1) + n := by omega
    rw [h3, Nat.add_mod_right, Nat.mod_eq_of_lt (by omega)]

/-- Claim C3: `prg` is a pure deterministic function of `(key, field_name)`
— its output depends only on the seed string `f"{seed}_{key_name}"`, which is
the same across process restarts — and the output always lies in
`[1, 2^30]`, for every underlying generator `H`. -/
theorem prg_deterministic_in_range (H : String → Nat) (s1 s2 : Int)
    (k1 k2 : String) (h : toString s1 ++ "_" ++ k1 = toString s2 ++ "_" ++ k2) :
    prg H s1 k1 = prg H s2 k2 ∧ 1 ≤ prg H s1 k1 ∧ prg H s1 k1 ≤ 2 ^ 30 := by
  refine ⟨by unfold prg; rw [h], ?_, ?_⟩ <;>
  · unfold prg randint1 STATISTICAL_SECURITY
    have := Nat.mod_lt (H (toString s1 ++ "_" ++ k1)) (show 0 < 2 ^ 30 by norm_num)
    omega

theorem prg_deterministic_in_range_witness :
    prg (fun _ => 0) 1 "a" = prg (fun _ => 0) 1 "a" ∧
    1 ≤ prg (fun _ => 0) 1 "a" ∧ prg (fun _ => 0) 1 "a" ≤ 2 ^ 30 :=
  prg_deterministic_in_range (fun _ => 0) 1 1 "a" "a" rfl

/-- Claim C6: `get_neighbors` fails with the not-in-ring error exactly when
the self identity is absent from the ring; when present it instead returns a
neighbor pair (no other outcome exists). -/
theorem get_neighbors_error_iff_absent (ring : List String) (me : String) :
    (me ∉ ring → get_neighbors ring me = .error (notInRingMsg me)) ∧
    (me ∈ ring → ∃ p, get_neighbors ring me = .ok p) := by
  constructor
  · intro h; unfold get_neighbors; rw [if_neg h]
  · intro h; unfold get_neighbors; rw [if_pos h]; exact ⟨_, rfl⟩

theorem get_neighbors_error_iff_absent_witness :
    get_neighbors ["A", "C"] "B" = .error (notInRingMsg "B") :=
  (get_neighbors_error_iff_absent ["A", "C"] "B").1 (by decide)

/-- Claim C7: for a duplicate-free ring containing `me` at index `i`,
`get_neighbors` returns `(ring[(i-1) mod n], ring[(i+1) mod n])`; in
particular for ring `[A,B,C]` it returns `(A, C)` for self `B` and `(C, B)`
for self `A` (wrap-around). -/
theorem get_neighbors_mod_formula (ring : List String) (me : String) (i : Nat)
    (hi : i < ring.length) (hnd : ring.Nodup) (hme : ring.get ⟨i, hi⟩ = me) :
    get_neighbors ring me =
      .ok (ring.getD ((i + ring.length - 1) % ring.length) "",
           ring.getD ((i + 1) % ring.length) "") ∧
    get_neighbors ["A", "B", "C"] "B" = .ok ("A", "C") ∧
    get_neighbors ["A", "B", "C"] "A" = .ok ("C", "B") := by
  refine ⟨?_, rfl, rfl⟩
  have hmem : me ∈ ring := hme ▸ List.get_mem ring i hi
  have hidx : ring.indexOf me = i := by
    subst hme
    simpa using List.indexOf_getElem hnd i hi
  unfold get_neighbors
  rw [if_pos hmem, hidx]
  show Except.ok (ring.getD (prevIdx ring.length i) "",
    ring.getD (nextIdx ring.length i) "") = _
  rw [prevIdx_eq_nat (by omega) hi]
  rfl

theorem get_neighbors_mod_formula_witness :
    get_neighbors ["A", "B", "C"] "B" =
      .ok ((["A", "B", "C"] : List String).getD ((1 + 3 - 1) % 3) "",
           (["A", "B", "C"] : List String).getD ((1 + 1) % 3) "") :=
  (get_neighbors_mod_formula ["A", "B", "C"] "B" 1 (by decide) (by decide)
    (by decide)).1

/-- Claim C8: invoking Stage 1 when the second key already exists but the
first key has not yet arrived leaves the key state (the stored secret and
the value already sent to the next neighbor) unchanged, performs no key
write, and only re-reports incomplete status. -/
theorem stage1_no_regeneration (me next : String) (fresh : Int)
    (st : KeyState) (h2 : st.mySecond.isSome = true) (h1 : st.myFirst = none) :
    (stage1 me next fresh st).state = st ∧
    (∀ e ∈ (stage1 me next fresh st).events, e.isWrite = false) ∧
    (stage1 me next fresh st).status = "Key exchange incomplete." := by
  have hres : stage1 me next fresh st =
      ⟨st, setup_folder_perms me next, "Key exchange incomplete."⟩ := by
    unfold stage1
    rw [h1]
    simp [h2]
  rw [hres]
  refine ⟨rfl, ?_, rfl⟩
  intro e he
  fin_cases he <;> rfl

theorem stage1_no_regeneration_witness :
    (stage1 "A" "B" 7 ⟨some 5, none, some 5⟩).state = ⟨some 5, none, some 5⟩ ∧
    (∀ e ∈ (stage1 "A" "B" 7 ⟨some 5, none, some 5⟩).events,
      e.isWrite = false) ∧
    (stage1 "A" "B" 7 ⟨some 5, none, some 5⟩).status =
      "Key exchange incomplete." :=
  stage1_no_regeneration "A" "B" 7 ⟨some 5, none, some 5⟩ rfl rfl

/-- Claim C9: in every Stage 1 invocation that writes a fresh secret, the
trace is exactly the two permission restrictions (next neighbor's `first`
folder readable only by the next neighbor, the local `second` folder
readable only by the owner) followed by the two key writes; consequently
every key-write event in the trace is preceded by both permission events. -/
theorem stage1_perms_before_secret (me next : String) (fresh : Int)
    (st : KeyState)
    (h : ∃ e ∈ (stage1 me next fresh st).events, e.isWrite = true) :
    (stage1 me next fresh st).events =
      setup_folder_perms me next ++
        [.writeKey me "second" fresh, .writeKey next "first" fresh] ∧
    (∀ (i : Nat) (e : Event), (stage1 me next fresh st).events[i]? = some e →
      e.isWrite = true →
        Event.setPerm next "first" [next] [me]
            ∈ (stage1 me next fresh st).events.take i ∧
        Event.setPerm me "second" [me] [me]
            ∈ (stage1 me next fresh st).events.take i) := by
  have hev : (stage1 me next fresh st).events =
      setup_folder_perms me next ++
        [.writeKey me "second" fresh, .writeKey next "first" fresh] := by
    rcases hs2 : st.mySecond with _ | v2
    · unfold stage1
      simp [hs2]
    · rcases hs1 : st.myFirst with _ | v1
      · exfalso
        unfold stage1 at h
        simp [hs2, hs1, setup_folder_perms, Event.isWrite] at h
      · exfalso
        unfold stage1 at h
        simp [hs2, hs1] at h
  refine ⟨hev, ?_⟩
  intro i e hi hw
  rw [hev] at hi ⊢
  simp only [setup_folder_perms, List.cons_append, List.nil_append] at hi ⊢
  match i with
  | 0 =>
    simp only [List.getElem?_cons_zero, Option.some.injEq] at hi
    subst hi
    simp [Event.isWrite] at hw
  | 1 =>
    simp only [List.getElem?_cons_succ, List.getElem?_cons_zero,
      Option.some.injEq] at hi
    subst hi
    simp [Event.isWrite] at hw
  | 2 => simp [List.take]
  | 3 => simp [List.take]
  | (m + 4) =>
    simp only [List.getElem?_cons_succ, List.getElem?_nil] at hi
    exact absurd hi (by simp)

theorem stage1_perms_before_secret_witness :
    (stage1 "A" "B" 7 ⟨none, none, none⟩).events =
      setup_folder_perms "A" "B" ++
        [.writeKey "A" "second" 7, .writeKey "B" "first" 7] ∧
    (∀ (i : Nat) (e : Event),
      (stage1 "A" "B" 7 ⟨none, none, none⟩).events[i]? = some e →
      e.isWrite = true →
        Event.setPerm "B" "first" ["B"] ["A"]
            ∈ (stage1 "A" "B" 7 ⟨none, none, none⟩).events.take i ∧
        Event.setPerm "A" "second" ["A"] ["A"]
            ∈ (stage1 "A" "B" 7 ⟨none, none, none⟩).events.take i) :=
  stage1_perms_before_secret "A" "B" 7 ⟨none, none, none⟩
    ⟨.writeKey "A" "second" 7, by decide⟩


theorem addField_eq_none_iff (a : Aggregate) (key : String) (v : Int) :
    addField a key v = none ↔ key ∉ schemaFields := by
  unfold addField schemaFields
  by_cases h1 : key = "view_time" <;>
    by_cases h2 : key = "average_views_per_day" <;>
    by_cases h3 : key = "num_movies_watched" <;>
    by_cases h4 : key = "num_movies_rated" <;>
    simp [h1, h2, h3, h4]

theorem foldl_bind_none (l : List (String × Int)) :
    l.foldl (fun acc kv => acc.bind (fun ag => addField ag kv.1 kv.2)) none =
      none := by
  induction l with
  | nil => rfl
  | cons kv t ih => simpa using ih

theorem sumRecord_some_keys (a : Aggregate) (rec : List (String × Int))
    (h : ∀ kv ∈ rec, kv.1 ∈ schemaFields) :
    ∃ a', sumRecord a rec = some a' := by
  induction rec generalizing a with
  | nil => exact ⟨a, rfl⟩
  | cons kv t ih =>
    have hk : kv.1 ∈ schemaFields := h kv (List.mem_cons_self _ _)
    obtain ⟨b, hb⟩ : ∃ b, addField a kv.1 kv.2 = some b := by
      rcases ho : addField a kv.1 kv.2 with _ | b
      · exact absurd hk ((addField_eq_none_iff _ _ _).1 ho)
      · exact ⟨b, rfl⟩
    obtain ⟨a', ha'⟩ := ih b (fun kv' h' => h kv' (List.mem_cons_of_mem _ h'))
    refine ⟨a', ?_⟩
    unfold sumRecord at ha' ⊢
    rw [List.foldl_cons]
    simpa [hb] using ha'

theorem sumRecord_none_bad (a : Aggregate) (rec : List (String × Int))
    (h : ∃ kv ∈ rec, kv.1 ∉ schemaFields) : sumRecord a rec = none := by
  induction rec generalizing a with
  | nil => simp at h
  | cons kv t ih =>
    unfold sumRecord
    rw [List.foldl_cons]
    simp only [Option.some_bind]
    obtain ⟨kv', hmem, hbad⟩ := h
    rcases List.mem_cons.1 hmem with rfl | hmem'
    · rw [(addField_eq_none_iff _ _ _).2 hbad]
      exact foldl_bind_none t
    · rcases ho : addField a kv.1 kv.2 with _ | b
      · exact foldl_bind_none t
      · exact ih b ⟨kv', hmem', hbad⟩

theorem aggLoop_pending (published : String → Option (List (String × Int)))
    (m : Nat) (ring : List String) (a : Aggregate)
    (hwf : ∀ u ∈ ring, ∀ rec, published u = some rec →
      ∀ kv ∈ rec, kv.1 ∈ schemaFields)
    (habs : ∃ u ∈ ring, published u = none) :
    aggLoop published m ring a = .pending := by
  induction ring generalizing a with
  | nil => simp at habs
  | cons u rest ih =>
    unfold aggLoop
    rcases hp : published u with _ | rec
    · rfl
    · obtain ⟨a', ha'⟩ :=
        sumRecord_some_keys a rec (hwf u (List.mem_cons_self _ _) rec hp)
      simp only [ha']
      apply ih a' (fun u' h' rec' => hwf u' (List.mem_cons_of_mem _ h') rec')
      obtain ⟨u', hu', hnone⟩ := habs
      rcases List.mem_cons.1 hu' with rfl | h'
      · rw [hp] at hnone; cases hnone
      · exact ⟨u', h', hnone⟩

theorem aggLoop_ne_keyError (published : String → Option (List (String × Int)))
    (m : Nat) (ring : List String) (a : Aggregate)
    (hwf : ∀ u ∈ ring, ∀ rec, published u = some rec →
      ∀ kv ∈ rec, kv.1 ∈ schemaFields) :
    aggLoop published m ring a ≠ .keyError := by
  induction ring generalizing a with
  | nil => exact fun h => AggResult.noConfusion h
  | cons u rest ih =>
    unfold aggLoop
    rcases hp : published u with _ | rec
    · exact fun h => AggResult.noConfusion h
    · obtain ⟨a', ha'⟩ :=
        sumRecord_some_keys a rec (hwf u (List.mem_cons_self _ _) rec hp)
      simp only [ha']
      exact ih a' (fun u' h' rec' => hwf u' (List.mem_cons_of_mem _ h') rec')

theorem aggLoop_keyError (published : String → Option (List (String × Int)))
    (m : Nat) (ring : List String) (a : Aggregate)
    (hall : ∀ u ∈ ring, published u ≠ none)
    (hbad : ∃ u ∈ ring, ∃ rec, published u = some rec ∧
      ∃ kv ∈ rec, kv.1 ∉ schemaFields) :
    aggLoop published m ring a = .keyError := by
  induction ring generalizing a with
  | nil => simp at hbad
  | cons u rest ih =>
    unfold aggLoop
    rcases hp : published u with _ | rec
    · exact absurd hp (hall u (List.mem_cons_self _ _))
    · rcases hs : sumRecord a rec with _ | a'
      · simp only [hs]
      · simp only [hs]
        apply ih a' (fun u' h' => hall u' (List.mem_cons_of_mem _ h'))
        obtain ⟨u', hu', rec', hrec', kv, hkv, hbadkv⟩ := hbad
        rcases List.mem_cons.1 hu' with rfl | h'
        · rw [hp] at hrec'
          injection hrec' with e
          subst e
          rw [sumRecord_none_bad a _ ⟨kv, hkv, hbadkv⟩] at hs
          cases hs
        · exact ⟨u', h', rec', hrec', kv, hkv, hbadkv⟩

/-- Claim C5 (amended): for every ring in which some participant's published
masked record is absent AND every present published record uses only the
four schema field names, `aggregate_data` returns the pending signal — not
an error and not a completed result — and therefore writes no aggregate
artifact (the artifact is produced only on the `done` path, reached only
after every member's record has been read and summed). -/
theorem aggregate_pending_when_absent
    (published : String → Option (List (String × Int))) (ring : List String)
    (hwf : ∀ u ∈ ring, ∀ rec, published u = some rec →
      ∀ kv ∈ rec, kv.1 ∈ schemaFields)
    (habs : ∃ u ∈ ring, published u = none) :
    aggregate_data published ring = .pending :=
  aggLoop_pending published ring.length ring initAggregate hwf habs

theorem aggregate_pending_when_absent_witness :
    aggregate_data
      (fun u => if u = "A" then some [("view_time", 1)] else none)
      ["A", "B", "C"] = .pending :=
  aggregate_pending_when_absent _ ["A", "B", "C"]
    (by
      intro u hu rec hrec kv hkv
      fin_cases hu
      · rw [if_pos rfl] at hrec
        injection hrec with e
        subst e
        rcases List.mem_singleton.1 hkv with rfl
        decide
      · rw [if_neg (by decide)] at hrec; cases hrec
      · rw [if_neg (by decide)] at hrec; cases hrec)
    ⟨"B", by decide, by decide⟩

/-- Claim C5, as literally stated, is false on the code: in the ring
`[A, B, C]` with B's record absent but A's present record holding the
non-schema field `bogus`, `aggregate_data` hits the `KeyError` branch at A
(which comes first) instead of returning the pending signal. -/
theorem aggregate_absent_not_pending_cex :
    ((fun u => if u = "A" then some [("bogus", 1)]
        else if u = "C" then some [("view_time", 1)] else none) "B"
      = (none : Option (List (String × Int)))) ∧
    "B" ∈ ["A", "B", "C"] ∧
    aggregate_data
      (fun u => if u = "A" then some [("bogus", 1)]
        else if u = "C" then some [("view_time", 1)] else none)
      ["A", "B", "C"] = .keyError ∧
    aggregate_data
      (fun u => if u = "A" then some [("bogus", 1)]
        else if u = "C" then some [("view_time", 1)] else none)
      ["A", "B", "C"] ≠ .pending := by
  refine ⟨rfl, by decide, rfl, ?_⟩
  intro h
  rw [show aggregate_data
      (fun u => if u = "A" then some [("bogus", 1)]
        else if u = "C" then some [("view_time", 1)] else none)
      ["A", "B", "C"] = .keyError from rfl] at h
  cases h

/-- Claim C10: aggregation is total only under the fixed four-field schema.
With every ring member's record present, a published record holding any
field name outside the four accumulator fields makes `aggregate_data` hit
the unhandled `KeyError` branch instead of returning pending or a result;
under the precondition that every published record uses only the four schema
field names, that branch is unreachable. -/
theorem aggregate_schema_totality
    (published : String → Option (List (String × Int))) (ring : List String) :
    ((∀ u ∈ ring, published u ≠ none) →
      (∃ u ∈ ring, ∃ rec, published u = some rec ∧
        ∃ kv ∈ rec, kv.1 ∉ schemaFields) →
      aggregate_data published ring = .keyError) ∧
    ((∀ u ∈ ring, ∀ rec, published u = some rec →
        ∀ kv ∈ rec, kv.1 ∈ schemaFields) →
      aggregate_data published ring ≠ .keyError) :=
  ⟨fun hall hbad => aggLoop_keyError published ring.length ring initAggregate
      hall hbad,
   fun hwf => aggLoop_ne_keyError published ring.length ring initAggregate hwf⟩

theorem aggregate_schema_totality_witness :
    aggregate_data (fun _ => some [("bogus", 1)]) ["A"] = .keyError :=
  (aggregate_schema_totality (fun _ => some [("bogus", 1)]) ["A"]).1
    (fun u _ h => Option.noConfusion h)
    ⟨"A", by decide, [("bogus", 1)], rfl, ("bogus", 1), by decide, by decide⟩

theorem agg3_done (pub : String → Option (List (String × Int))) (v0 v1 v2 : Int)
    (hA : pub "A" = some [("view_time", v0)])
    (hB : pub "B" = some [("view_time", v1)])
    (hC : pub "C" = some [("view_time", v2)]) :
    aggregate_data pub ["A", "B", "C"] =
      .done ⟨v0 + v1 + v2, 0, 0, 0⟩ (average_of ⟨v0 + v1 + v2, 0, 0, 0⟩ 3) := by
  have e0 : (0 : Int) + v0 + v1 + v2 = v0 + v1 + v2 := by ring
  simp [aggregate_data, aggLoop, hA, hB, hC, sumRecord, addField, initAggregate,
    e0]

/-- Claim C4: in the 3-participant scenario with private records
`view_time = 10, 15, 12` and correctly exchanged keys (participant i's first
key is the secret of its previous ring neighbor), the aggregator returns
pending whenever at least one participant's masked record is absent, and
once all are present the aggregate it produces for `view_time` is the exact
sum 37, regardless of the key values `s0, s1, s2`. -/
theorem aggregate_scenario_37 (H : String → Nat) (s0 s1 s2 : Int) :
    (∀ pub : String → Option (List (String × Int)),
      (pub "A" = none ∨
        pub "A" = some (encrypt_data H (load_my_data [("view_time", 10)]) s2 s0)) →
      (pub "B" = none ∨
        pub "B" = some (encrypt_data H (load_my_data [("view_time", 15)]) s0 s1)) →
      (pub "C" = none ∨
        pub "C" = some (encrypt_data H (load_my_data [("view_time", 12)]) s1 s2)) →
      (pub "A" = none ∨ pub "B" = none ∨ pub "C" = none) →
      aggregate_data pub ["A", "B", "C"] = .pending) ∧
    aggregate_data
      (fun u =>
        if u = "A" then
          some (encrypt_data H (load_my_data [("view_time", 10)]) s2 s0)
        else if u = "B" then
          some (encrypt_data H (load_my_data [("view_time", 15)]) s0 s1)
        else if u = "C" then
          some (encrypt_data H (load_my_data [("view_time", 12)]) s1 s2)
        else none)
      ["A", "B", "C"] = .done ⟨37, 0, 0, 0⟩ (average_of ⟨37, 0, 0, 0⟩ 3) := by
  constructor
  · intro pub hA hB hC habs
    apply aggLoop_pending pub 3 ["A", "B", "C"] initAggregate
    · intro u hu rec hrec kv hkv
      fin_cases hu
      · rcases hA with h | h
        · rw [h] at hrec; cases hrec
        · rw [h] at hrec
          injection hrec with e
          subst e
          simp only [load_my_data, List.mergeSort_singleton, encrypt_data,
            List.map_cons, List.map_nil, List.mem_singleton] at hkv
          subst hkv
          simp [schemaFields]
      · rcases hB with h | h
        · rw [h] at hrec; cases hrec
        · rw [h] at hrec
          injection hrec with e
          subst e
          simp only [load_my_data, List.mergeSort_singleton, encrypt_data,
            List.map_cons, List.map_nil, List.mem_singleton] at hkv
          subst hkv
          simp [schemaFields]
      · rcases hC with h | h
        · rw [h] at hrec; cases hrec
        · rw [h] at hrec
          injection hrec with e
          subst e
          simp only [load_my_data, List.mergeSort_singleton, encrypt_data,
            List.map_cons, List.map_nil, List.mem_singleton] at hkv
          subst hkv
          simp [schemaFields]
    · rcases habs with h | h | h
      · exact ⟨"A", by decide, h⟩
      · exact ⟨"B", by decide, h⟩
      · exact ⟨"C", by decide, h⟩
  · have hmask : ∀ (v : Int) (k1 k2 : Int),
        encrypt_data H (load_my_data [("view_time", v)]) k1 k2 =
          [("view_time",
            v + ((prg H k1 "view_time" : Int) - (prg H k2 "view_time" : Int)))] := by
      intro v k1 k2
      simp [load_my_data, encrypt_data]
    have h := agg3_done
      (fun u =>
        if u = "A" then
          some (encrypt_data H (load_my_data [("view_time", 10)]) s2 s0)
        else if u = "B" then
          some (encrypt_data H (load_my_data [("view_time", 15)]) s0 s1)
        else if u = "C" then
          some (encrypt_data H (load_my_data [("view_time", 12)]) s1 s2)
        else none)
      (10 + ((prg H s2 "view_time" : Int) - (prg H s0 "view_time" : Int)))
      (15 + ((prg H s0 "view_time" : Int) - (prg H s1 "view_time" : Int)))
      (12 + ((prg H s1 "view_time" : Int) - (prg H s2 "view_time" : Int)))
      (by simp only [if_pos rfl, reduceIte, hmask])
      (by simp only [String.reduceEq, reduceIte, hmask])
      (by simp only [String.reduceEq, reduceIte, hmask])
    rw [h]
    have hv : (10 + ((prg H s2 "view_time" : Int) - (prg H s0 "view_time" : Int))) +
        (15 + ((prg H s0 "view_time" : Int) - (prg H s1 "view_time" : Int))) +
        (12 + ((prg H s1 "view_time" : Int) - (prg H s2 "view_time" : Int))) =
          37 := by ring
    rw [hv]

theorem aggregate_scenario_37_witness :
    aggregate_data
      (fun u =>
        if u = "A" then
          some (encrypt_data (fun _ => 0)
            (load_my_data [("view_time", 10)]) 0 0)
        else none)
      ["A", "B", "C"] = .pending ∧
    aggregate_data
      (fun u =>
        if u = "A" then
          some (encrypt_data (fun _ => 0) (load_my_data [("view_time", 10)]) 0 0)
        else if u = "B" then
          some (encrypt_data (fun _ => 0) (load_my_data [("view_time", 15)]) 0 0)
        else if u = "C" then
          some (encrypt_data (fun _ => 0) (load_my_data [("view_time", 12)]) 0 0)
        else none)
      ["A", "B", "C"] = .done ⟨37, 0, 0, 0⟩ (average_of ⟨37, 0, 0, 0⟩ 3) :=
  ⟨(aggregate_scenario_37 (fun _ => 0) 0 0 0).1 _
      (Or.inr rfl) (Or.inl rfl) (Or.inl rfl) (Or.inr (Or.inl rfl)),
   (aggregate_scenario_37 (fun _ => 0) 0 0 0).2⟩

theorem fieldSum_cons (kv : String × Int) (t : List (String × Int)) (f : String) :
    fieldSum (kv :: t) f = (if kv.1 == f then kv.2 else 0) + fieldSum t f := by
  unfold fieldSum
  rw [List.filter_cons]
  cases h : (kv.1 == f) <;> simp [h]

theorem fieldSum_encrypt (H : String → Nat) (rec : List (String × Int))
    (k1 k2 : Int) (f : String) :
    fieldSum (encrypt_data H rec k1 k2) f =
      fieldSum rec f +
        ((rec.map Prod.fst).count f : Int) *
          ((prg H k1 f : Int) - (prg H k2 f : Int)) := by
  induction rec with
  | nil => simp [fieldSum, encrypt_data]
  | cons kv t ih =>
    simp only [encrypt_data, List.map_cons] at ih ⊢
    rw [fieldSum_cons, fieldSum_cons, List.count_cons, ih]
    cases h : (kv.1 == f)
    · simp only [h, Bool.false_eq_true, if_false]
      push_cast
      ring
    · have hf : kv.1 = f := eq_of_beq h
      subst hf
      simp only [h, if_true]
      push_cast
      ring

theorem prevFin_bijective {n : Nat} (hn : 0 < n) :
    Function.Bijective (prevFin hn) := by
  rw [Function.bijective_iff_has_inverse]
  refine ⟨fun j => ⟨nextIdx n j.1, Nat.mod_lt _ hn⟩, ?_, ?_⟩
  · intro i
    apply Fin.ext
    show nextIdx n (prevIdx n i.1) = i.1
    rw [prevIdx_eq_ite hn i.2]
    rcases Nat.eq_zero_or_pos i.1 with h0 | hpos
    · rw [h0, if_pos rfl]
      show (n - 1 + 1) % n = 0
      rw [Nat.sub_add_cancel hn, Nat.mod_self]
    · rw [if_neg (by omega)]
      show (i.1 - 1 + 1) % n = i.1
      rw [Nat.sub_add_cancel hpos, Nat.mod_eq_of_lt i.2]
  · intro j
    apply Fin.ext
    show prevIdx n (nextIdx n j.1) = j.1
    unfold nextIdx
    rcases Nat.lt_or_ge (j.1 + 1) n with hlt | hge
    · rw [Nat.mod_eq_of_lt hlt, prevIdx_eq_ite hn hlt, if_neg (by omega)]
      omega
    · have hj : j.1 + 1 = n := by omega
      rw [hj, Nat.mod_self, prevIdx_eq_ite hn hn, if_pos rfl]
      omega

/-- Claim C1: for every ring of size at least 3, all secrets `s`, and all
four-field records, if every participant's first key equals the second key
generated by its previous ring neighbor (`first i = s (prev i)`), then the
field-by-field sum of the masked records produced by `encrypt_data` equals
the field-by-field sum of the private records — the masks telescope and
cancel exactly. -/
theorem mask_cancellation (H : String → Nat) (n : Nat) (hn : 3 ≤ n)
    (s first : Fin n → Int) (r : Fin n → List (String × Int))
    (hschema : ∀ i, ((r i).map Prod.fst).Perm schemaFields)
    (hfirst : ∀ i, first i = s (prevFin (by omega) i)) (f : String) :
    (∑ i, fieldSum (encrypt_data H (r i) (first i) (s i)) f) =
      ∑ i, fieldSum (r i) f := by
  have hn0 : 0 < n := by omega
  have hcount : ∀ i, ((r i).map Prod.fst).count f = schemaFields.count f :=
    fun i => (hschema i).count_eq f
  have step : ∀ i, fieldSum (encrypt_data H (r i) (first i) (s i)) f =
      fieldSum (r i) f + (schemaFields.count f : Int) *
        ((prg H (first i) f : Int) - (prg H (s i) f : Int)) := by
    intro i
    rw [fieldSum_encrypt, hcount i]
  calc (∑ i, fieldSum (encrypt_data H (r i) (first i) (s i)) f)
      = ∑ i, (fieldSum (r i) f + (schemaFields.count f : Int) *
          ((prg H (first i) f : Int) - (prg H (s i) f : Int))) :=
        Finset.sum_congr rfl (fun i _ => step i)
    _ = (∑ i, fieldSum (r i) f) + (schemaFields.count f : Int) *
          ((∑ i, (prg H (first i) f : Int)) - ∑ i, (prg H (s i) f : Int)) := by
        rw [Finset.sum_add_distrib, ← Finset.mul_sum, Finset.sum_sub_distrib]
    _ = ∑ i, fieldSum (r i) f := by
        have h1 : ∀ i : Fin n, (prg H (first i) f : Int) =
            (prg H (s (prevFin hn0 i)) f : Int) := by
          intro i
          rw [hfirst i]
        have heq : (∑ i, (prg H (first i) f : Int)) =
            ∑ i, (prg H (s i) f : Int) := by
          rw [Finset.sum_congr rfl (fun i _ => h1 i)]
          exact Fintype.sum_bijective (prevFin hn0) (prevFin_bijective hn0)
            (fun i => (prg H (s (prevFin hn0 i)) f : Int))
            (fun i => (prg H (s i) f : Int)) (fun i => rfl)
        rw [heq]
        ring

theorem mask_cancellation_witness :
    (∑ i : Fin 3, fieldSum (encrypt_data (fun _ => 0)
        [("view_time", 1), ("average_views_per_day", 2),
         ("num_movies_watched", 3), ("num_movies_rated", 4)] 0 0) "view_time") =
      ∑ i : Fin 3, fieldSum
        [("view_time", 1), ("average_views_per_day", 2),
         ("num_movies_watched", 3), ("num_movies_rated", 4)] "view_time" :=
  mask_cancellation (fun _ => 0) 3 (by omega) (fun _ => 0) (fun _ => 0)
    (fun _ => [("view_time", 1), ("average_views_per_day", 2),
      ("num_movies_watched", 3), ("num_movies_rated", 4)])
    (fun i =>
      show ([("view_time", (1 : Int)), ("average_views_per_day", 2),
        ("num_movies_watched", 3),
        ("num_movies_rated", 4)].map Prod.fst).Perm schemaFields by decide)
    (fun i => rfl) "view_time"

theorem itemLe_trans : ∀ (a b c : String × Int),
    itemLe a b = true → itemLe b c = true → itemLe a c = true := by
  intro a b c hab hbc
  simp only [itemLe, Bool.or_eq_true, Bool.and_eq_true, decide_eq_true_eq]
    at hab hbc ⊢
  rcases hab with h1 | ⟨h1, h2⟩ <;> rcases hbc with h3 | ⟨h3, h4⟩
  · exact Or.inl (lt_trans h1 h3)
  · exact Or.inl (lt_of_lt_of_eq h1 h3)
  · exact Or.inl (lt_of_eq_of_lt h1 h3)
  · exact Or.inr ⟨h1.trans h3, le_trans h2 h4⟩

theorem itemLe_total : ∀ (a b : String × Int),
    (itemLe a b || itemLe b a) = true := by
  intro a b
  simp only [itemLe, Bool.or_eq_true, Bool.and_eq_true, decide_eq_true_eq]
  rcases lt_trichotomy a.1 b.1 with h | h | h
  · exact Or.inl (Or.inl h)
  · rcases le_total a.2 b.2 with h2 | h2
    · exact Or.inl (Or.inr ⟨h, h2⟩)
    · exact Or.inr (Or.inr ⟨h.symm, h2⟩)
  · exact Or.inr (Or.inl h)

theorem itemLe_antisymm : ∀ (a b : String × Int),
    itemLe a b = true → itemLe b a = true → a = b := by
  intro a b hab hba
  simp only [itemLe, Bool.or_eq_true, Bool.and_eq_true, decide_eq_true_eq]
    at hab hba
  rcases hab with h1 | ⟨h1, h2⟩ <;> rcases hba with h3 | ⟨h3, h4⟩
  · exact absurd (lt_trans h1 h3) (lt_irrefl _)
  · exact absurd (lt_of_lt_of_eq h1 h3) (lt_irrefl _)
  · exact absurd (lt_of_lt_of_eq h3 h1) (lt_irrefl _)
  · exact Prod.ext h1 (le_antisymm h2 h4)

theorem load_my_data_perm (d : List (String × Int)) : (load_my_data d).Perm d :=
  List.mergeSort_perm d itemLe

theorem load_my_data_eq_of_perm (d1 d2 : List (String × Int))
    (h : d1.Perm d2) : load_my_data d1 = load_my_data d2 := by
  haveI : IsAntisymm (String × Int) (fun a b => itemLe a b = true) :=
    ⟨itemLe_antisymm⟩
  exact List.eq_of_perm_of_sorted
    ((load_my_data_perm d1).trans (h.trans (load_my_data_perm d2).symm))
    (List.sorted_mergeSort itemLe_trans itemLe_total d1)
    (List.sorted_mergeSort itemLe_trans itemLe_total d2)

/-- Claim C2: the masked record produced from a loaded private record has
exactly the same field names (as a multiset) as the input record; each
output value equals `private_value + prg(first_key, f) - prg(second_key, f)`;
the fields are processed in canonical order (sorted by field name, since
`load_my_data` sorts the items); and the result is therefore independent of
the in-memory ordering of the input mapping. -/
theorem encrypt_data_canonical (H : String → Nat) (d1 d2 : List (String × Int))
    (k1 k2 : Int) (hperm : d1.Perm d2) :
    ((encrypt_data H (load_my_data d1) k1 k2).map Prod.fst).Perm
      (d1.map Prod.fst) ∧
    (∀ p ∈ d1, (p.1, p.2 + ((prg H k1 p.1 : Int) - (prg H k2 p.1 : Int))) ∈
      encrypt_data H (load_my_data d1) k1 k2) ∧
    encrypt_data H (load_my_data d1) k1 k2 =
      (load_my_data d1).map (fun kv =>
        (kv.1, kv.2 + ((prg H k1 kv.1 : Int) - (prg H k2 kv.1 : Int)))) ∧
    ((load_my_data d1).map Prod.fst).Pairwise (· ≤ ·) ∧
    encrypt_data H (load_my_data d1) k1 k2 =
      encrypt_data H (load_my_data d2) k1 k2 := by
  refine ⟨?_, ?_, rfl, ?_, ?_⟩
  · have h1 : (encrypt_data H (load_my_data d1) k1 k2).map Prod.fst =
        (load_my_data d1).map Prod.fst := by
      unfold encrypt_data
      rw [List.map_map]
      rfl
    rw [h1]
    exact (load_my_data_perm d1).map Prod.fst
  · intro p hp
    have hmem : p ∈ load_my_data d1 := (load_my_data_perm d1).mem_iff.2 hp
    exact List.mem_map.2 ⟨p, hmem, rfl⟩
  · have hs := List.sorted_mergeSort itemLe_trans itemLe_total d1
    refine List.Pairwise.map Prod.fst ?_ hs
    intro a b hab
    simp only [itemLe, Bool.or_eq_true, Bool.and_eq_true, decide_eq_true_eq]
      at hab
    rcases hab with h | ⟨h, _⟩
    · exact le_of_lt h
    · exact le_of_eq h
  · exact congrArg (fun l => encrypt_data H l k1 k2)
      (load_my_data_eq_of_perm d1 d2 hperm)

theorem encrypt_data_canonical_witness :
    ((encrypt_data (fun _ => 0) (load_my_data [("b", 2), ("a", 1)]) 0 0).map
      Prod.fst).Perm ([("b", (2 : Int)), ("a", 1)].map Prod.fst) ∧
    (∀ p ∈ [("b", (2 : Int)), ("a", 1)],
      (p.1, p.2 + ((prg (fun _ => 0) 0 p.1 : Int) -
        (prg (fun _ => 0) 0 p.1 : Int))) ∈
      encrypt_data (fun _ => 0) (load_my_data [("b", 2), ("a", 1)]) 0 0) ∧
    encrypt_data (fun _ => 0) (load_my_data [("b", 2), ("a", 1)]) 0 0 =
      (load_my_data [("b", 2), ("a", 1)]).map (fun kv =>
        (kv.1, kv.2 + ((prg (fun _ => 0) 0 kv.1 : Int) -
          (prg (fun _ => 0) 0 kv.1 : Int)))) ∧
    ((load_my_data [("b", (2 : Int)), ("a", 1)]).map Prod.fst).Pairwise
      (· ≤ ·) ∧
    encrypt_data (fun _ => 0) (load_my_data [("b", 2), ("a", 1)]) 0 0 =
      encrypt_data (fun _ => 0) (load_my_data [("a", 1), ("b", 2)]) 0 0 :=
  encrypt_data_canonical (fun _ => 0) [("b", 2), ("a", 1)] [("a", 1), ("b", 2)]
    0 0 (by decide)
